import Mathlib

/-!
# The packet codec of `awe` (`awe.go`)

A shallow embedding of `Packet.Encode` and `Packet.Decode` and of the Go
primitives they use, followed by theorems about the wire format.

Conventions of the embedding.

* A Go `byte` is a `Fin 256`.  A Go `string` is its sequence of bytes.
* A Go `uint32` is a natural number below `2 ^ 32`; every `uint32` operation
  of the source is followed by an explicit `% 2 ^ 32`.
* A Go `int` is 64 bits wide.  The only `int` values of the codec are sums of
  at most three lengths of objects held in memory and the constant 12, which
  stay far below `2 ^ 63`; they are modelled as exact natural numbers.
* A run of Go code either finishes (`Except.ok`) or stops with a run-time
  panic (`Except.error`).
-/

namespace Awe

/-! ## Go primitives -/

/-- A Go `byte`. -/
abbrev Byte := Fin 256

/-- The Go conversion `byte(v)`: the low eight bits of `v`. -/
def byte (v : Nat) : Byte := ⟨v % 256, Nat.mod_lt v (by decide)⟩

/-- The Go conversion `uint32(n)` of a non-negative `int`: the low 32 bits. -/
def uint32 (n : Nat) : Nat := n % 2 ^ 32

/-- Run-time panics of the Go code the codec can reach. -/
inductive Panic where
  /-- An index expression `b[i]` with `i` outside `0 ≤ i < len(b)`. -/
  | indexOutOfRange (i len : Nat)
  /-- A slice expression `b[lo:hi]` outside `0 ≤ lo ≤ hi ≤ cap(b)`. -/
  | sliceBoundsOutOfRange (lo hi cap : Nat)
  deriving DecidableEq, Repr

/-- A run of Go code: a result, or a run-time panic. -/
abbrev Exec (α : Type) := Except Panic α

/-- A Go `[]byte` seen from its first element: the `len` elements it holds
(`elems`), then the rest of its backing array up to `cap` (`spare`). -/
structure Slice where
  elems : List Byte
  spare : List Byte
  deriving DecidableEq, Repr

namespace Slice

/-- Go `len(s)`. -/
def len (s : Slice) : Nat := s.elems.length

/-- Go `cap(s)`. -/
def cap (s : Slice) : Nat := s.elems.length + s.spare.length

/-- Go `make([]byte, n)`: `n` zero bytes, capacity `n`. -/
def make (n : Nat) : Slice := ⟨List.replicate n 0, []⟩

/-- Go `s[lo:]`, that is `s[lo:len(s)]`: panics unless `lo ≤ len(s)`. -/
def sliceFrom (s : Slice) (lo : Nat) : Exec Slice :=
  if lo ≤ s.len then
    .ok ⟨s.elems.drop lo, s.spare⟩
  else
    .error (.sliceBoundsOutOfRange lo s.len s.cap)

/-- Go `s[lo:hi]`: panics unless `lo ≤ hi ≤ cap(s)`; the upper bound of a
slice expression on a slice is its capacity, not its length. -/
def slice (s : Slice) (lo hi : Nat) : Exec Slice :=
  if lo ≤ hi ∧ hi ≤ s.cap then
    .ok ⟨((s.elems ++ s.spare).drop lo).take (hi - lo), (s.elems ++ s.spare).drop hi⟩
  else
    .error (.sliceBoundsOutOfRange lo hi s.cap)

/-- Writing through the sub-slice `s[off:]`: `f` gives the new contents of the
elements of `s[off:]`, which share the backing array of `s`. -/
def writeFrom (s : Slice) (off : Nat) (f : List Byte → Exec (List Byte)) : Exec Slice := do
  let dst ← s.sliceFrom off
  let d ← f dst.elems
  pure ⟨s.elems.take off ++ d, s.spare⟩

end Slice

/-- Go built-in `copy(dst, src)`: the first `min(len(dst), len(src))` elements
of `dst` are overwritten by those of `src`. -/
def copy (dst src : List Byte) : List Byte :=
  src.take (min dst.length src.length) ++ dst.drop (min dst.length src.length)

/-- Go `binary.LittleEndian.Uint32(b)` (package `encoding/binary`):
`_ = b[3]`, then `uint32(b[0]) | uint32(b[1])<<8 | uint32(b[2])<<16 | uint32(b[3])<<24`. -/
def Uint32 (b : Slice) : Exec Nat :=
  match b.elems with
  | b0 :: b1 :: b2 :: b3 :: _ =>
    .ok (b0.val ||| b1.val <<< 8 ||| b2.val <<< 16 ||| b3.val <<< 24)
  | _ => .error (.indexOutOfRange 3 b.len)

/-- Go `binary.LittleEndian.PutUint32(b, v)` (package `encoding/binary`), as the
new contents of `b`: `_ = b[3]`, then `b[0] = byte(v)`, `b[1] = byte(v >> 8)`,
`b[2] = byte(v >> 16)`, `b[3] = byte(v >> 24)`. -/
def PutUint32 (b : List Byte) (v : Nat) : Exec (List Byte) :=
  match b with
  | _ :: _ :: _ :: _ :: rest =>
    .ok (byte v :: byte (v >>> 8) :: byte (v >>> 16) :: byte (v >>> 24) :: rest)
  | _ => .error (.indexOutOfRange 3 b.length)

/-! ## `awe.go` -/

/-- The constant expression `1 << iota` that the `const` block gives to
`FastUnmarshal` and, by implicit repetition, to the six constants after it.
Go evaluates constant expressions exactly; the value must fit the declared
type `byte`. -/
def flagAt (iota : Nat) : Nat := 1 <<< iota

/-- Constant `Raw` (`iota = 0`, explicit value 0). -/
def Raw : Nat := 0

/-- Constant `FastUnmarshal` (`iota = 1`). -/
def FastUnmarshal : Nat := flagAt 1

/-- Constant `Crc32` (`iota = 2`). -/
def Crc32 : Nat := flagAt 2

/-- Constant `Pub` (`iota = 3`). -/
def Pub : Nat := flagAt 3

/-- Constant `Sub` (`iota = 4`). -/
def Sub : Nat := flagAt 4

/-- Constant `Unsub` (`iota = 5`). -/
def Unsub : Nat := flagAt 5

/-- Constant `Queue` (`iota = 6`). -/
def Queue : Nat := flagAt 6

/-- Constant `Compress` (`iota = 7`). -/
def Compress : Nat := flagAt 7

/-- Constant `MarkerSize`. -/
def MarkerSize : Nat := 2

/-- Constant `packetHeaderSize`. -/
def packetHeaderSize : Nat := 12

/-- The errors `Decode` can name: `io.ErrUnexpectedEOF` and the package's own
`ErrInvalidPacket`. -/
inductive Error where
  | ErrUnexpectedEOF
  | ErrInvalidPacket
  deriving DecidableEq, Repr

/-- Type `Packet`.  `Op` and `Key` are Go strings, `Value` is a `[]byte`, of
which the codec observes the elements only. -/
structure Packet where
  Op : List Byte
  Key : List Byte
  Value : List Byte
  deriving DecidableEq, Repr

/-- Method `Packet.Encode`. -/
def Encode (p : Packet) : Exec Slice := do
  let opLen := uint32 p.Op.length
  let keyLen := uint32 p.Key.length
  let valLen := uint32 p.Value.length
  let totalLen := packetHeaderSize + p.Op.length + p.Key.length + p.Value.length
  let buf := Slice.make totalLen
  let buf ← buf.writeFrom 0 (fun b => PutUint32 b opLen)
  let buf ← buf.writeFrom 4 (fun b => PutUint32 b keyLen)
  let buf ← buf.writeFrom 8 (fun b => PutUint32 b valLen)
  let offset := packetHeaderSize
  let buf ← buf.writeFrom offset (fun dst => pure (copy dst p.Op))
  let offset := offset + opLen
  let buf ← buf.writeFrom offset (fun dst => pure (copy dst p.Key))
  let offset := offset + keyLen
  let buf ← buf.writeFrom offset (fun dst => pure (copy dst p.Value))
  return buf

/-- Method `Packet.Decode` over a reader `rd` for the length fields
(`binary.LittleEndian.Uint32` in the source).  The receiver `p` is passed in
and the result is the receiver after the call with the returned `error`
(`none` is Go `nil`).  The sums of `uint32` values wrap at `2 ^ 32`; the
conversion `int(...)` of a `uint32` is exact. -/
def decodeWith (rd : Slice → Exec Nat) (p : Packet) (buf : Slice) :
    Exec (Packet × Option Error) :=
  if buf.len < packetHeaderSize then
    return (p, some .ErrUnexpectedEOF)
  else do
    let opLen ← buf.sliceFrom 0 >>= rd
    let keyLen ← buf.sliceFrom 4 >>= rd
    let valLen ← buf.sliceFrom 8 >>= rd
    let totalLen := uint32 (uint32 (uint32 (packetHeaderSize + opLen) + keyLen) + valLen)
    if buf.len < totalLen then
      return (p, some .ErrUnexpectedEOF)
    else do
      let opBytes ← buf.slice packetHeaderSize (uint32 (packetHeaderSize + opLen))
      let keyBytes ← buf.slice (uint32 (packetHeaderSize + opLen))
        (uint32 (uint32 (packetHeaderSize + opLen) + keyLen))
      let valBytes ← buf.slice (uint32 (uint32 (packetHeaderSize + opLen) + keyLen))
        (uint32 (uint32 (uint32 (packetHeaderSize + opLen) + keyLen) + valLen))
      let p := { p with Key := keyBytes.elems }
      let p := { p with Op := opBytes.elems }
      let p := { p with Value := valBytes.elems }
      return (p, none)

/-- Method `Packet.Decode`. -/
def Decode (p : Packet) (buf : Slice) : Exec (Packet × Option Error) :=
  decodeWith Uint32 p buf

/-- The bytes of an ASCII string literal. -/
def ascii (s : String) : List Byte := s.toList.map (fun c => byte c.toNat)

/-- The Packet `p` of `TestEncodeDecodePacket` (`test/awe_test.go`). -/
def testPacket : Packet :=
  { Op := ascii "PUB"
    Key := ascii "topic.person.say"
    Value := ascii
      "Why, sometimes I\x27ve believed as many as six impossible things before breakfast." }

/-! ## Reference notions of the wire format -/

/-- The 4-byte little-endian encoding `LE32` of the wire layout. -/
def le32 (v : Nat) : List Byte :=
  [byte v, byte (v / 2 ^ 8), byte (v / 2 ^ 16), byte (v / 2 ^ 24)]

/-- The 12-byte header declaring the lengths `a`, `b`, `c`. -/
def header (a b c : Nat) : List Byte := le32 a ++ le32 b ++ le32 c

/-- The contents of a buffer `e` after `copy(e[off:], src)`. -/
def putAt (e : List Byte) (off : Nat) (src : List Byte) : List Byte :=
  e.take off ++ copy (e.drop off) src

/-- The contents of the buffer of `Encode` after its three header writes and
its three `copy` calls. -/
def encoded (p : Packet) : List Byte :=
  putAt (putAt (putAt
    (header (uint32 p.Op.length) (uint32 p.Key.length) (uint32 p.Value.length)
      ++ List.replicate (p.Op.length + p.Key.length + p.Value.length) 0)
    packetHeaderSize p.Op)
    (packetHeaderSize + uint32 p.Op.length) p.Key)
    (packetHeaderSize + uint32 p.Op.length + uint32 p.Key.length) p.Value

/-- The seven option flags, in the order of their declaration. -/
def flags : List Nat := [FastUnmarshal, Crc32, Pub, Sub, Unsub, Queue, Compress]

/-- The bitwise OR `f1 | f2 | ...` of a collection of option values; the
empty collection gives `Raw`. -/
def orAll (s : List Nat) : Nat := s.foldr (fun f acc => f ||| acc) Raw

/-- A run of `Decode` that succeeded: it finished and returned `nil`. -/
def Succeeds (r : Exec (Packet × Option Error)) : Prop :=
  ∃ p, r = .ok (p, none)

/-! ## Lemmas on the Go primitives -/

theorem or_shiftLeft_eq (x y i : Nat) (h : x < 2 ^ i) : x ||| y <<< i = 2 ^ i * y + x := by
  rw [Nat.shiftLeft_eq, Nat.mul_comm, Nat.or_comm]
  exact (Nat.mul_add_lt_is_or h y).symm

theorem or_shift_eq (b0 b1 b2 b3 : Nat) (h0 : b0 < 256) (h1 : b1 < 256) (h2 : b2 < 256) :
    b0 ||| b1 <<< 8 ||| b2 <<< 16 ||| b3 <<< 24
      = b0 + 256 * b1 + 65536 * b2 + 16777216 * b3 := by
  rw [or_shiftLeft_eq b0 b1 8 (by omega), or_shiftLeft_eq _ b2 16 (by omega),
    or_shiftLeft_eq _ b3 24 (by omega)]
  omega

theorem le32_length (v : Nat) : (le32 v).length = 4 := rfl

theorem header_length (a b c : Nat) : (header a b c).length = 12 := rfl

theorem Uint32_le32 (v : Nat) (hv : v < 2 ^ 32) (rest sp : List Byte) :
    Uint32 ⟨le32 v ++ rest, sp⟩ = .ok v := by
  simp only [Uint32, le32, List.cons_append, List.nil_append, byte]
  rw [or_shift_eq _ _ _ _ (by omega) (by omega) (by omega)]
  congr 1
  omega

theorem PutUint32_eq (x0 x1 x2 x3 : Byte) (rest : List Byte) (v : Nat) :
    PutUint32 (x0 :: x1 :: x2 :: x3 :: rest) v = .ok (le32 v ++ rest) := by
  simp [PutUint32, le32, Nat.shiftRight_eq_div_pow]

theorem copy_length (dst src : List Byte) : (copy dst src).length = dst.length := by
  simp only [copy, List.length_append, List.length_take, List.length_drop]
  omega

theorem copy_nil (dst : List Byte) : copy dst [] = dst := by
  simp [copy]

theorem copy_replicate (src : List Byte) (n : Nat) (h : src.length ≤ n) :
    copy (List.replicate n 0) src = src ++ List.replicate (n - src.length) 0 := by
  simp only [copy, List.length_replicate, List.drop_replicate]
  rw [Nat.min_eq_right h, List.take_of_length_le (Nat.le_refl _)]

/-! ## Lemmas on `Encode` -/

theorem writeFrom_ok (s : Slice) (off : Nat) (f : List Byte → Exec (List Byte))
    (h : off ≤ s.elems.length) :
    s.writeFrom off f = (f (s.elems.drop off)).map (fun d => ⟨s.elems.take off ++ d, s.spare⟩) := by
  unfold Slice.writeFrom Slice.sliceFrom Slice.len
  rw [if_pos h]
  cases hf : f (s.elems.drop off) <;> simp [hf, bind, Except.bind, Except.map, pure, Except.pure]

theorem writeFrom_copy (s : Slice) (off : Nat) (src : List Byte) (h : off ≤ s.elems.length) :
    s.writeFrom off (fun dst => pure (copy dst src)) = .ok ⟨putAt s.elems off src, s.spare⟩ := by
  rw [writeFrom_ok s off _ h]
  rfl

theorem make_header_add (n : Nat) :
    Slice.make (packetHeaderSize + n)
      = ⟨0 :: 0 :: 0 :: 0 :: 0 :: 0 :: 0 :: 0 :: 0 :: 0 :: 0 :: 0 :: List.replicate n 0, []⟩ := by
  unfold Slice.make packetHeaderSize
  rw [Nat.add_comm]
  rfl

theorem putAt_length (e : List Byte) (off : Nat) (src : List Byte) (h : off ≤ e.length) :
    (putAt e off src).length = e.length := by
  simp only [putAt, List.length_append, List.length_take, copy_length, List.length_drop]
  omega

theorem putAt_take (e : List Byte) (off : Nat) (src : List Byte) (k : Nat) (hk : k ≤ off)
    (h : off ≤ e.length) : (putAt e off src).take k = e.take k := by
  unfold putAt
  rw [List.take_append_of_le_length (by simp; omega), List.take_take, Nat.min_eq_left hk]

theorem uint32_le (n : Nat) : uint32 n ≤ n := Nat.mod_le _ _

theorem uint32_lt (n : Nat) : uint32 n < 2 ^ 32 := Nat.mod_lt _ (by decide)

theorem uint32_of_lt (n : Nat) (h : n < 2 ^ 32) : uint32 n = n := Nat.mod_eq_of_lt h

theorem Encode_ok (p : Packet) : Encode p = .ok ⟨encoded p, []⟩ := by
  have ha := uint32_le p.Op.length
  have hb := uint32_le p.Key.length
  unfold Encode
  simp only []
  rw [Nat.add_assoc, Nat.add_assoc, ← Nat.add_assoc p.Op.length, make_header_add]
  rw [writeFrom_ok _ 0 _ (Nat.zero_le _)]
  simp only [List.drop_zero, List.take_zero, List.nil_append, PutUint32_eq, Except.map, le32,
    List.cons_append, bind, Except.bind]
  rw [writeFrom_ok _ 4 _ (by simp)]
  simp only [List.drop_succ_cons, List.drop_zero, List.take_succ_cons, List.take_zero,
    PutUint32_eq, Except.map, le32, List.cons_append, List.nil_append]
  rw [writeFrom_ok _ 8 _ (by simp)]
  simp only [List.drop_succ_cons, List.drop_zero, List.take_succ_cons, List.take_zero,
    PutUint32_eq, Except.map, le32, List.cons_append, List.nil_append]
  rw [writeFrom_copy _ _ _ (by simp [packetHeaderSize])]
  simp only []
  rw [writeFrom_copy _ _ _ (by rw [putAt_length _ _ _ (by simp [packetHeaderSize])]; simp [packetHeaderSize]; omega)]
  simp only []
  rw [writeFrom_copy _ _ _ (by
    rw [putAt_length _ _ _ (by rw [putAt_length _ _ _ (by simp [packetHeaderSize])]; simp [packetHeaderSize]; omega),
      putAt_length _ _ _ (by simp [packetHeaderSize])]; simp [packetHeaderSize]; omega)]
  rfl

theorem encoded_length (p : Packet) :
    (encoded p).length = 12 + p.Op.length + p.Key.length + p.Value.length := by
  have ha := uint32_le p.Op.length
  have hb := uint32_le p.Key.length
  have h0 : (header (uint32 p.Op.length) (uint32 p.Key.length) (uint32 p.Value.length)
      ++ List.replicate (p.Op.length + p.Key.length + p.Value.length) 0).length
      = 12 + p.Op.length + p.Key.length + p.Value.length := by
    simp only [List.length_append, header_length, List.length_replicate]
    omega
  have h1 := putAt_length _ packetHeaderSize p.Op (by rw [h0]; unfold packetHeaderSize; omega)
  have h2 := putAt_length _ (packetHeaderSize + uint32 p.Op.length) p.Key
    (by rw [h1, h0]; unfold packetHeaderSize; omega)
  have h3 := putAt_length _ (packetHeaderSize + uint32 p.Op.length + uint32 p.Key.length) p.Value
    (by rw [h2, h1, h0]; unfold packetHeaderSize; omega)
  unfold encoded
  rw [h3, h2, h1, h0]

theorem encoded_take_header (p : Packet) :
    (encoded p).take 12
      = header (uint32 p.Op.length) (uint32 p.Key.length) (uint32 p.Value.length) := by
  have ha := uint32_le p.Op.length
  have hb := uint32_le p.Key.length
  have h0 : (header (uint32 p.Op.length) (uint32 p.Key.length) (uint32 p.Value.length)
      ++ List.replicate (p.Op.length + p.Key.length + p.Value.length) 0).length
      = 12 + p.Op.length + p.Key.length + p.Value.length := by
    simp only [List.length_append, header_length, List.length_replicate]
    omega
  have h1 := putAt_length _ packetHeaderSize p.Op (by rw [h0]; unfold packetHeaderSize; omega)
  have h2 := putAt_length _ (packetHeaderSize + uint32 p.Op.length) p.Key
    (by rw [h1, h0]; unfold packetHeaderSize; omega)
  unfold encoded
  rw [putAt_take _ _ _ 12 (by unfold packetHeaderSize; omega)
      (by rw [h2, h1, h0]; unfold packetHeaderSize; omega),
    putAt_take _ _ _ 12 (by unfold packetHeaderSize; omega)
      (by rw [h1, h0]; unfold packetHeaderSize; omega),
    putAt_take _ _ _ 12 (by unfold packetHeaderSize; omega)
      (by rw [h0]; unfold packetHeaderSize; omega)]
  rw [List.take_append_of_le_length (by rw [header_length]),
    List.take_of_length_le (by rw [header_length])]

theorem putAt_append (pre rest src : List Byte) (off : Nat) (h : pre.length = off) :
    putAt (pre ++ rest) off src = pre ++ copy rest src := by
  subst h
  unfold putAt
  rw [List.take_left, List.drop_left]

theorem encoded_eq (p : Packet) (ha : p.Op.length < 2 ^ 32) (hb : p.Key.length < 2 ^ 32) :
    encoded p
      = header (uint32 p.Op.length) (uint32 p.Key.length) (uint32 p.Value.length)
          ++ (p.Op ++ (p.Key ++ p.Value)) := by
  unfold encoded packetHeaderSize
  rw [uint32_of_lt _ ha, uint32_of_lt _ hb]
  rw [putAt_append _ _ _ _ (header_length _ _ _), copy_replicate _ _ (by omega)]
  rw [← List.append_assoc,
    putAt_append _ _ _ _ (by rw [List.length_append, header_length]),
    copy_replicate _ _ (by omega)]
  rw [← List.append_assoc,
    putAt_append _ _ _ _ (by rw [List.length_append, List.length_append, header_length]),
    copy_replicate _ _ (by omega)]
  have hz : p.Op.length + p.Key.length + p.Value.length - p.Op.length - p.Key.length
      - p.Value.length = 0 := by omega
  rw [hz]
  simp

/-! ## Lemmas on `Decode` -/

theorem header_append (a b c : Nat) (rest : List Byte) :
    header a b c ++ rest = le32 a ++ (le32 b ++ (le32 c ++ rest)) := by
  simp [header]

theorem sliceFrom_ok (s : Slice) (lo : Nat) (h : lo ≤ s.elems.length) :
    s.sliceFrom lo = .ok ⟨s.elems.drop lo, s.spare⟩ := by
  unfold Slice.sliceFrom Slice.len
  rw [if_pos h]

theorem read_opLen (a b c : Nat) (ha : a < 2 ^ 32) (rest sp : List Byte) :
    ((Slice.mk (header a b c ++ rest) sp).sliceFrom 0 >>= Uint32) = .ok a := by
  rw [header_append, sliceFrom_ok _ 0 (Nat.zero_le _)]
  exact Uint32_le32 a ha (le32 b ++ (le32 c ++ rest)) sp

theorem read_keyLen (a b c : Nat) (hb : b < 2 ^ 32) (rest sp : List Byte) :
    ((Slice.mk (header a b c ++ rest) sp).sliceFrom 4 >>= Uint32) = .ok b := by
  rw [header_append, sliceFrom_ok _ 4 (by simp [le32])]
  exact Uint32_le32 b hb (le32 c ++ rest) sp

theorem read_valLen (a b c : Nat) (hc : c < 2 ^ 32) (rest sp : List Byte) :
    ((Slice.mk (header a b c ++ rest) sp).sliceFrom 8 >>= Uint32) = .ok c := by
  rw [header_append, sliceFrom_ok _ 8 (by simp [le32])]
  exact Uint32_le32 c hc rest sp

theorem le32_of_bytes (x0 x1 x2 x3 : Byte) :
    le32 (x0.val + 256 * x1.val + 65536 * x2.val + 16777216 * x3.val) = [x0, x1, x2, x3] := by
  have h0 := x0.isLt
  have h1 := x1.isLt
  have h2 := x2.isLt
  have h3 := x3.isLt
  simp only [le32, byte, List.cons.injEq, and_true]
  refine ⟨Fin.ext ?_, Fin.ext ?_, Fin.ext ?_, Fin.ext ?_⟩ <;> simp only [] <;> omega

/-- Every buffer of at least 12 bytes starts with the header of three 32-bit
lengths. -/
theorem exists_header (l : List Byte) (h : 12 ≤ l.length) :
    ∃ a b c rest, a < 2 ^ 32 ∧ b < 2 ^ 32 ∧ c < 2 ^ 32 ∧ l = header a b c ++ rest := by
  match l, h with
  | x0 :: x1 :: x2 :: x3 :: y0 :: y1 :: y2 :: y3 :: z0 :: z1 :: z2 :: z3 :: rest, _ =>
    refine ⟨x0.val + 256 * x1.val + 65536 * x2.val + 16777216 * x3.val,
      y0.val + 256 * y1.val + 65536 * y2.val + 16777216 * y3.val,
      z0.val + 256 * z1.val + 65536 * z2.val + 16777216 * z3.val, rest, ?_, ?_, ?_, ?_⟩
    · have := x0.isLt; have := x1.isLt; have := x2.isLt; have := x3.isLt; omega
    · have := y0.isLt; have := y1.isLt; have := y2.isLt; have := y3.isLt; omega
    · have := z0.isLt; have := z1.isLt; have := z2.isLt; have := z3.isLt; omega
    · unfold header
      rw [le32_of_bytes, le32_of_bytes, le32_of_bytes]
      rfl

/-- The run of `Decode` on a buffer that starts with the header declaring
`a`, `b`, `c`: what is left after the three reads. -/
theorem Decode_header (q : Packet) (a b c : Nat) (ha : a < 2 ^ 32) (hb : b < 2 ^ 32)
    (hc : c < 2 ^ 32) (rest sp : List Byte) :
    Decode q ⟨header a b c ++ rest, sp⟩
      = if 12 + rest.length < uint32 (uint32 (uint32 (12 + a) + b) + c) then
          .ok (q, some .ErrUnexpectedEOF)
        else
          ((Slice.mk (header a b c ++ rest) sp).slice 12 (uint32 (12 + a))).bind fun opBytes =>
          ((Slice.mk (header a b c ++ rest) sp).slice (uint32 (12 + a))
            (uint32 (uint32 (12 + a) + b))).bind fun keyBytes =>
          ((Slice.mk (header a b c ++ rest) sp).slice (uint32 (uint32 (12 + a) + b))
            (uint32 (uint32 (uint32 (12 + a) + b) + c))).bind fun valBytes =>
          .ok (⟨opBytes.elems, keyBytes.elems, valBytes.elems⟩, none) := by
  have hlen : (Slice.mk (header a b c ++ rest) sp).len = 12 + rest.length := by
    simp [Slice.len, header_length]
  unfold Decode decodeWith
  rw [read_opLen a b c ha, read_keyLen a b c hb, read_valLen a b c hc, hlen]
  rw [if_neg (by unfold packetHeaderSize; omega)]
  rfl

theorem slice_of_le_len (s : Slice) (lo hi : Nat) (h1 : lo ≤ hi) (h2 : hi ≤ s.elems.length) :
    s.slice lo hi = .ok ⟨(s.elems.drop lo).take (hi - lo), (s.elems ++ s.spare).drop hi⟩ := by
  unfold Slice.slice Slice.cap
  rw [if_pos ⟨h1, by omega⟩, List.drop_append_of_le_length (by omega),
    List.take_append_of_le_length (by rw [List.length_drop]; omega)]

theorem slice_panics (s : Slice) (lo hi : Nat) (h : hi < lo) :
    s.slice lo hi = .error (.sliceBoundsOutOfRange lo hi s.cap) := by
  unfold Slice.slice
  rw [if_neg (by omega)]

theorem drop_header_append (a b c n : Nat) (rest : List Byte) :
    (header a b c ++ rest).drop (12 + n) = rest.drop n := by
  rw [← header_length a b c, List.drop_append]

/-- A buffer that starts with a header whose exact total fits in 32 bits and
that holds at least that total: `Decode` succeeds and cuts the three fields
out of the bytes after the header. -/
theorem Decode_header_ok (q : Packet) (a b c : Nat) (rest sp : List Byte)
    (ht : 12 + a + b + c < 2 ^ 32) (hl : a + b + c ≤ rest.length) :
    Decode q ⟨header a b c ++ rest, sp⟩
      = .ok (⟨rest.take a, (rest.drop a).take b, (rest.drop (a + b)).take c⟩, none) := by
  rw [Decode_header q a b c (by omega) (by omega) (by omega)]
  have e1 : uint32 (12 + a) = 12 + a := uint32_of_lt _ (by omega)
  have e2 : uint32 (12 + a + b) = 12 + a + b := uint32_of_lt _ (by omega)
  have e3 : uint32 (12 + a + b + c) = 12 + a + b + c := uint32_of_lt _ (by omega)
  rw [e1, e2, e3, if_neg (by omega)]
  have hlen : (header a b c ++ rest).length = 12 + rest.length := by
    rw [List.length_append, header_length]
  rw [slice_of_le_len _ 12 (12 + a) (by omega) (by rw [hlen]; omega),
    slice_of_le_len _ (12 + a) (12 + a + b) (by omega) (by rw [hlen]; omega),
    slice_of_le_len _ (12 + a + b) (12 + a + b + c) (by omega) (by rw [hlen]; omega)]
  simp only [Except.bind]
  have d0 := drop_header_append a b c 0 rest
  have d1 := drop_header_append a b c a rest
  have d2 := drop_header_append a b c (a + b) rest
  rw [Nat.add_zero, List.drop_zero] at d0
  rw [← Nat.add_assoc] at d2
  rw [d0, d1, d2]
  have s1 : 12 + a - 12 = a := by omega
  have s2 : 12 + a + b - (12 + a) = b := by omega
  have s3 : 12 + a + b + c - (12 + a + b) = c := by omega
  rw [s1, s2, s3]

/-- A buffer that starts with a header whose exact total fits in 32 bits and
that holds fewer bytes than that total: `Decode` returns
`io.ErrUnexpectedEOF` and leaves the receiver as it was. -/
theorem Decode_header_eof (q : Packet) (a b c : Nat) (rest sp : List Byte)
    (ht : 12 + a + b + c < 2 ^ 32) (hl : rest.length < a + b + c) :
    Decode q ⟨header a b c ++ rest, sp⟩ = .ok (q, some .ErrUnexpectedEOF) := by
  rw [Decode_header q a b c (by omega) (by omega) (by omega)]
  have e1 : uint32 (12 + a) = 12 + a := uint32_of_lt _ (by omega)
  have e2 : uint32 (12 + a + b) = 12 + a + b := uint32_of_lt _ (by omega)
  have e3 : uint32 (12 + a + b + c) = 12 + a + b + c := uint32_of_lt _ (by omega)
  rw [e1, e2, e3, if_pos (by omega)]

/-- A buffer that starts with a header whose exact total does not fit in 32
bits and that holds at least the wrapped total: `Decode` stops with a
slice-bounds panic. -/
theorem Decode_header_panic (q : Packet) (a b c : Nat) (rest sp : List Byte)
    (ha : a < 2 ^ 32) (hb : b < 2 ^ 32) (hc : c < 2 ^ 32)
    (ht : 2 ^ 32 ≤ 12 + a + b + c) (hl : (12 + a + b + c) % 2 ^ 32 ≤ 12 + rest.length) :
    ∃ lo hi cap, Decode q ⟨header a b c ++ rest, sp⟩
      = .error (.sliceBoundsOutOfRange lo hi cap) := by
  rw [Decode_header q a b c ha hb hc]
  have hw : uint32 (uint32 (uint32 (12 + a) + b) + c) = (12 + a + b + c) % 2 ^ 32 := by
    unfold uint32; omega
  rw [if_neg (by rw [hw]; omega)]
  by_cases h1 : uint32 (12 + a) < 12
  · rw [slice_panics _ _ _ h1]
    exact ⟨_, _, _, rfl⟩
  · cases hs1 : (Slice.mk (header a b c ++ rest) sp).slice 12 (uint32 (12 + a)) with
    | error e =>
      cases e with
      | indexOutOfRange i n => simp [Slice.slice] at hs1; split at hs1 <;> simp at hs1
      | sliceBoundsOutOfRange lo hi cap => exact ⟨lo, hi, cap, rfl⟩
    | ok s1 =>
      simp only [Except.bind]
      by_cases h2 : uint32 (uint32 (12 + a) + b) < uint32 (12 + a)
      · rw [slice_panics _ _ _ h2]
        exact ⟨_, _, _, rfl⟩
      · cases hs2 : (Slice.mk (header a b c ++ rest) sp).slice (uint32 (12 + a))
            (uint32 (uint32 (12 + a) + b)) with
        | error e =>
          cases e with
          | indexOutOfRange i n => simp [Slice.slice] at hs2; split at hs2 <;> simp at hs2
          | sliceBoundsOutOfRange lo hi cap => exact ⟨lo, hi, cap, rfl⟩
        | ok s2 =>
          simp only [Except.bind]
          have h3 : uint32 (uint32 (uint32 (12 + a) + b) + c) < uint32 (uint32 (12 + a) + b) := by
            unfold uint32 at h1 h2 ⊢; omega
          rw [slice_panics _ _ _ h3]
          exact ⟨_, _, _, rfl⟩

/-- A buffer that starts with a header and holds fewer bytes than the wrapped
`uint32` total: `Decode` returns `io.ErrUnexpectedEOF`. -/
theorem Decode_header_eof_wrapped (q : Packet) (a b c : Nat) (rest sp : List Byte)
    (ha : a < 2 ^ 32) (hb : b < 2 ^ 32) (hc : c < 2 ^ 32)
    (hl : 12 + rest.length < (12 + a + b + c) % 2 ^ 32) :
    Decode q ⟨header a b c ++ rest, sp⟩ = .ok (q, some .ErrUnexpectedEOF) := by
  rw [Decode_header q a b c ha hb hc]
  have hw : uint32 (uint32 (uint32 (12 + a) + b) + c) = (12 + a + b + c) % 2 ^ 32 := by
    unfold uint32; omega
  rw [if_pos (by rw [hw]; exact hl)]

/-- The three ways a run of `Decode` can end on a buffer that starts with a
header: success with the three fields cut out of the body (the exact total
fits in 32 bits and in the buffer), `io.ErrUnexpectedEOF` with the receiver
unchanged, or a slice-bounds panic. -/
theorem Decode_header_cases (q : Packet) (a b c : Nat) (rest sp : List Byte)
    (ha : a < 2 ^ 32) (hb : b < 2 ^ 32) (hc : c < 2 ^ 32) :
    (12 + a + b + c < 2 ^ 32 ∧ a + b + c ≤ rest.length
        ∧ Decode q ⟨header a b c ++ rest, sp⟩
          = .ok (⟨rest.take a, (rest.drop a).take b, (rest.drop (a + b)).take c⟩, none))
      ∨ Decode q ⟨header a b c ++ rest, sp⟩ = .ok (q, some .ErrUnexpectedEOF)
      ∨ ∃ lo hi cap, Decode q ⟨header a b c ++ rest, sp⟩
          = .error (.sliceBoundsOutOfRange lo hi cap) := by
  by_cases ht : 12 + a + b + c < 2 ^ 32
  · by_cases hl : a + b + c ≤ rest.length
    · exact Or.inl ⟨ht, hl, Decode_header_ok q a b c rest sp ht hl⟩
    · exact Or.inr (Or.inl (Decode_header_eof q a b c rest sp ht (by omega)))
  · by_cases hl : (12 + a + b + c) % 2 ^ 32 ≤ 12 + rest.length
    · exact Or.inr (Or.inr (Decode_header_panic q a b c rest sp ha hb hc (by omega) hl))
    · exact Or.inr (Or.inl (Decode_header_eof_wrapped q a b c rest sp ha hb hc (by omega)))

/-- A run of `Decode` that returned `nil`: the buffer starts with a header
whose exact total fits in 32 bits and in the buffer, and the receiver holds
the three fields cut out of the body. -/
theorem Decode_ok_inv (q r : Packet) (buf : Slice) (h : Decode q buf = .ok (r, none)) :
    ∃ a b c rest, a < 2 ^ 32 ∧ b < 2 ^ 32 ∧ c < 2 ^ 32
      ∧ buf.elems = header a b c ++ rest
      ∧ 12 + a + b + c < 2 ^ 32 ∧ a + b + c ≤ rest.length
      ∧ r = ⟨rest.take a, (rest.drop a).take b, (rest.drop (a + b)).take c⟩ := by
  by_cases h12 : buf.len < 12
  · have hs : Decode q buf = .ok (q, some .ErrUnexpectedEOF) := by
      unfold Decode decodeWith
      rw [if_pos (by unfold packetHeaderSize; exact h12)]
      rfl
    rw [hs] at h
    cases h
  · obtain ⟨a, b, c, rest, ha, hb, hc, he⟩ := exists_header buf.elems (by unfold Slice.len at h12; omega)
    have hbuf : buf = ⟨header a b c ++ rest, buf.spare⟩ := by
      cases buf; simp only [Slice.mk.injEq, and_true]; exact he
    rw [hbuf] at h
    rcases Decode_header_cases q a b c rest buf.spare ha hb hc with ⟨ht, hl, hd⟩ | hd | ⟨lo, hi, cap, hd⟩
    · rw [hd] at h
      refine ⟨a, b, c, rest, ha, hb, hc, he, ht, hl, ?_⟩
      cases h
      rfl
    · rw [hd] at h; cases h
    · rw [hd] at h; cases h

/-- A run of `Decode` that returned an error: the error is
`io.ErrUnexpectedEOF`. -/
theorem Decode_err_inv (q r : Packet) (buf : Slice) (e : Error)
    (h : Decode q buf = .ok (r, some e)) : e = .ErrUnexpectedEOF := by
  by_cases h12 : buf.len < 12
  · have hs : Decode q buf = .ok (q, some .ErrUnexpectedEOF) := by
      unfold Decode decodeWith
      rw [if_pos (by unfold packetHeaderSize; exact h12)]
      rfl
    rw [hs] at h
    cases h
    rfl
  · obtain ⟨a, b, c, rest, ha, hb, hc, he⟩ := exists_header buf.elems (by unfold Slice.len at h12; omega)
    have hbuf : buf = ⟨header a b c ++ rest, buf.spare⟩ := by
      cases buf; simp only [Slice.mk.injEq, and_true]; exact he
    rw [hbuf] at h
    rcases Decode_header_cases q a b c rest buf.spare ha hb hc with ⟨_, _, hd⟩ | hd | ⟨lo, hi, cap, hd⟩
    · rw [hd] at h; cases h
    · rw [hd] at h; cases h; rfl
    · rw [hd] at h; cases h

/-- Two buffers that start with headers of 32-bit lengths and are equal have
the same three lengths and the same body. -/
theorem header_append_inj (a b c a2 b2 c2 : Nat) (x y : List Byte)
    (ha : a < 2 ^ 32) (hb : b < 2 ^ 32) (hc : c < 2 ^ 32)
    (ha2 : a2 < 2 ^ 32) (hb2 : b2 < 2 ^ 32) (hc2 : c2 < 2 ^ 32)
    (h : header a b c ++ x = header a2 b2 c2 ++ y) :
    a = a2 ∧ b = b2 ∧ c = c2 ∧ x = y := by
  have r0 := read_opLen a b c ha x []
  have r4 := read_keyLen a b c hb x []
  have r8 := read_valLen a b c hc x []
  rw [h] at r0 r4 r8
  rw [read_opLen a2 b2 c2 ha2 y []] at r0
  rw [read_keyLen a2 b2 c2 hb2 y []] at r4
  rw [read_valLen a2 b2 c2 hc2 y []] at r8
  cases r0
  cases r4
  cases r8
  exact ⟨rfl, rfl, rfl, List.append_cancel_left h⟩

/-- Round trip on a packet whose encoded length fits in 32 bits. -/
theorem Decode_encoded (p q : Packet) (sp : List Byte)
    (ht : 12 + p.Op.length + p.Key.length + p.Value.length < 2 ^ 32) :
    Decode q ⟨encoded p, sp⟩ = .ok (p, none) := by
  rw [encoded_eq p (by omega) (by omega), uint32_of_lt _ (by omega : p.Op.length < 2 ^ 32),
    uint32_of_lt _ (by omega : p.Key.length < 2 ^ 32),
    uint32_of_lt _ (by omega : p.Value.length < 2 ^ 32),
    Decode_header_ok q _ _ _ _ sp ht (by simp only [List.length_append]; omega)]
  rw [List.take_left, List.drop_left, List.take_left, ← List.append_assoc,
    ← List.length_append, List.drop_left, List.take_length]

/-! ## The claims -/

/-- C1 (as amended): for every Packet `p` whose encoded length
`12 + len(Op) + len(Key) + len(Value)` is below `2 ^ 32`, and every receiver
`q`, `Encode` returns a buffer on which `Decode` returns no error and leaves
in the receiver a Packet equal to `p` in `Op`, `Key` and `Value`. -/
theorem C1_roundtrip (p q : Packet)
    (ht : 12 + p.Op.length + p.Key.length + p.Value.length < 2 ^ 32) :
    ∃ buf, Encode p = .ok buf ∧ Decode q buf = .ok (p, none) :=
  ⟨⟨encoded p, []⟩, Encode_ok p, Decode_encoded p q [] ht⟩

/-- Witness of C1 (as amended) at `Op = [1]`, `Key = [2, 3]`, `Value = []`. -/
theorem C1_roundtrip_witness :
    12 + [(1 : Byte)].length + [(2 : Byte), 3].length + ([] : List Byte).length < 2 ^ 32
      ∧ ∃ buf, Encode ⟨[1], [2, 3], []⟩ = .ok buf
          ∧ Decode ⟨[], [], []⟩ buf = .ok (⟨[1], [2, 3], []⟩, none) :=
  ⟨by decide, C1_roundtrip ⟨[1], [2, 3], []⟩ ⟨[], [], []⟩ (by decide)⟩

/-- C1 as stated fails: for the Packet whose `Op` is `2 ^ 32` zero bytes and
whose `Key` and `Value` are empty, `Encode` writes the length field
`uint32(2 ^ 32) = 0`, and `Decode` on the encoded buffer returns no error with
an empty `Op`, which is not the `Op` of the packet. -/
theorem C1_counterexample :
    ∃ buf r, Encode ⟨List.replicate (2 ^ 32) 0, [], []⟩ = .ok buf
      ∧ Decode ⟨[], [], []⟩ buf = .ok (r, none)
      ∧ r.Op = []
      ∧ r.Op ≠ (Packet.mk (List.replicate (2 ^ 32) 0) [] []).Op := by
  refine ⟨⟨encoded ⟨List.replicate (2 ^ 32) 0, [], []⟩, []⟩, ⟨[], [], []⟩, Encode_ok _, ?_, rfl, ?_⟩
  · have hh := encoded_take_header ⟨List.replicate (2 ^ 32) 0, [], []⟩
    have hz : uint32 (List.replicate (2 ^ 32) (0 : Byte)).length = 0 := by
      rw [List.length_replicate]; rfl
    simp only [hz] at hh
    have hsplit := List.take_append_drop 12 (encoded ⟨List.replicate (2 ^ 32) 0, [], []⟩)
    rw [hh] at hsplit
    rw [← hsplit]
    exact Decode_header_ok _ 0 0 0 _ [] (by decide) (Nat.zero_le _)
  · intro h
    have hl := congrArg List.length h
    rw [List.length_replicate] at hl
    exact absurd hl (by decide)

/-- C2 fails on the code: on the 12-byte buffer whose header declares
`opLen = 0xFFFFFFFF`, `keyLen = 0`, `valLen = 0`, the `uint32` sum
`12 + opLen + keyLen + valLen` wraps to 11, the length check `len(buf) < 11`
lets the buffer through, and `buf[12 : 12+opLen]`, that is `buf[12:11]`, stops
`Decode` with a slice-bounds panic instead of a returned error. -/
theorem C2_decode_panics_on_wrapped_total :
    Decode ⟨[], [], []⟩ ⟨[255, 255, 255, 255, 0, 0, 0, 0, 0, 0, 0, 0], []⟩
      = .error (.sliceBoundsOutOfRange 12 11 12) := by
  rfl

/-- C3: for every Packet whose three field lengths each fit in an unsigned
32-bit integer, `Encode` returns the buffer
`LE32(len(Op)) ++ LE32(len(Key)) ++ LE32(len(Value)) ++ Op ++ Key ++ Value`. -/
theorem C3_wire_layout (p : Packet) (ha : p.Op.length < 2 ^ 32) (hb : p.Key.length < 2 ^ 32)
    (hc : p.Value.length < 2 ^ 32) :
    Encode p = .ok ⟨le32 p.Op.length ++ le32 p.Key.length ++ le32 p.Value.length
      ++ p.Op ++ p.Key ++ p.Value, []⟩ := by
  rw [Encode_ok, encoded_eq p ha hb, uint32_of_lt _ ha, uint32_of_lt _ hb, uint32_of_lt _ hc]
  simp only [header, List.append_assoc]

/-- Witness of C3 at `Op = [7]`, `Key = [8, 9]`, `Value = [10]`. -/
theorem C3_wire_layout_witness :
    Encode ⟨[7], [8, 9], [10]⟩
      = .ok ⟨le32 1 ++ le32 2 ++ le32 1 ++ [7] ++ [8, 9] ++ [10], []⟩ :=
  C3_wire_layout ⟨[7], [8, 9], [10]⟩ (by decide) (by decide) (by decide)

/-- C4: on every buffer shorter than 12 bytes `Decode` returns
`io.ErrUnexpectedEOF` and leaves the receiver as it was; it does so whatever
the reader of the length fields is, so no length field is read. -/
theorem C4_minimum_size_rejection (q : Packet) (buf : Slice) (h : buf.len < 12) :
    Decode q buf = .ok (q, some .ErrUnexpectedEOF)
      ∧ ∀ rd : Slice → Exec Nat, decodeWith rd q buf = .ok (q, some .ErrUnexpectedEOF) := by
  have hg : ∀ rd : Slice → Exec Nat, decodeWith rd q buf = .ok (q, some .ErrUnexpectedEOF) := by
    intro rd
    unfold decodeWith
    rw [if_pos (by unfold packetHeaderSize; exact h)]
    rfl
  exact ⟨hg Uint32, hg⟩

/-- Witness of C4 at the empty buffer. -/
theorem C4_minimum_size_rejection_witness :
    (Slice.mk [] []).len < 12
      ∧ Decode ⟨[1], [2], [3]⟩ ⟨[], []⟩ = .ok (⟨[1], [2], [3]⟩, some .ErrUnexpectedEOF) :=
  ⟨by decide, (C4_minimum_size_rejection ⟨[1], [2], [3]⟩ ⟨[], []⟩ (by decide)).1⟩

/-- C5: for three 32-bit lengths `a`, `b`, `c` with `12 + a + b + c < 2 ^ 32`
and a buffer that starts with the header declaring them: if the buffer has
exactly `12 + a + b + c - 1` bytes `Decode` returns `io.ErrUnexpectedEOF`, and
if it has exactly `12 + a + b + c` bytes `Decode` succeeds. -/
theorem C5_body_truncation_boundary (q : Packet) (a b c : Nat) (rest sp : List Byte)
    (ht : 12 + a + b + c < 2 ^ 32) :
    ((header a b c ++ rest).length = 12 + a + b + c - 1 →
        Decode q ⟨header a b c ++ rest, sp⟩ = .ok (q, some .ErrUnexpectedEOF))
      ∧ ((header a b c ++ rest).length = 12 + a + b + c →
        Succeeds (Decode q ⟨header a b c ++ rest, sp⟩)) := by
  constructor
  · intro hl
    rw [List.length_append, header_length] at hl
    exact Decode_header_eof q a b c rest sp ht (by omega)
  · intro hl
    rw [List.length_append, header_length] at hl
    exact ⟨_, Decode_header_ok q a b c rest sp ht (by omega)⟩

/-- Witness of C5 at the header declaring `(1, 1, 1)`, with two and with three
body bytes. -/
theorem C5_body_truncation_boundary_witness :
    (12 + 1 + 1 + 1 < 2 ^ 32
      ∧ (header 1 1 1 ++ [5, 6]).length = 12 + 1 + 1 + 1 - 1
      ∧ Decode ⟨[], [], []⟩ ⟨header 1 1 1 ++ [5, 6], []⟩ = .ok (⟨[], [], []⟩, some .ErrUnexpectedEOF))
    ∧ ((header 1 1 1 ++ [5, 6, 7]).length = 12 + 1 + 1 + 1
      ∧ Succeeds (Decode ⟨[], [], []⟩ ⟨header 1 1 1 ++ [5, 6, 7], []⟩)) :=
  ⟨⟨by decide, by decide,
    (C5_body_truncation_boundary ⟨[], [], []⟩ 1 1 1 [5, 6] [] (by decide)).1 (by decide)⟩,
   ⟨by decide,
    (C5_body_truncation_boundary ⟨[], [], []⟩ 1 1 1 [5, 6, 7] [] (by decide)).2 (by decide)⟩⟩

/-- C6: for every Packet the buffer returned by `Encode` has length, and
capacity, exactly `12 + len(Op) + len(Key) + len(Value)`. -/
theorem C6_exact_allocation (p : Packet) :
    ∃ buf, Encode p = .ok buf
      ∧ buf.len = 12 + p.Op.length + p.Key.length + p.Value.length
      ∧ buf.cap = 12 + p.Op.length + p.Key.length + p.Value.length :=
  ⟨⟨encoded p, []⟩, Encode_ok p, encoded_length p, by
    simp only [Slice.cap, List.length_nil, Nat.add_zero]; exact encoded_length p⟩

/-- C7 as stated fails: the 12-byte header of the encoded test packet is not
`[3,0,0,0, 17,0,0,0, 77,0,0,0]`; the key has 16 bytes and the value 79. -/
theorem C7_counterexample :
    ∃ buf, Encode testPacket = .ok buf
      ∧ buf.elems.take 12 ≠ [3, 0, 0, 0, 17, 0, 0, 0, 77, 0, 0, 0] :=
  ⟨⟨encoded testPacket, []⟩, Encode_ok testPacket, by decide⟩

/-- C7 (as amended): encoding the test packet yields a buffer whose 12-byte
header is `[3,0,0,0, 16,0,0,0, 79,0,0,0]`, followed by the bytes of `Op`, `Key`
and `Value` in that order; decoding that buffer returns the original triple. -/
theorem C7_concrete_scenario :
    testPacket.Op.length = 3 ∧ testPacket.Key.length = 16 ∧ testPacket.Value.length = 79
      ∧ Encode testPacket
        = .ok ⟨[3, 0, 0, 0, 16, 0, 0, 0, 79, 0, 0, 0]
            ++ testPacket.Op ++ testPacket.Key ++ testPacket.Value, []⟩
      ∧ Decode ⟨[], [], []⟩ ⟨[3, 0, 0, 0, 16, 0, 0, 0, 79, 0, 0, 0]
            ++ testPacket.Op ++ testPacket.Key ++ testPacket.Value, []⟩
        = .ok (testPacket, none) := by
  refine ⟨by decide, by decide, by decide, ?_, ?_⟩
  · rw [Encode_ok, encoded_eq testPacket (by decide) (by decide)]
    simp only [List.append_assoc]
    rfl
  · have h := Decode_encoded testPacket ⟨[], [], []⟩ [] (by decide)
    rw [encoded_eq testPacket (by decide) (by decide)] at h
    simp only [List.append_assoc]
    exact h

/-- C8: the Packet whose three fields are empty encodes to exactly 12 bytes,
all zero, and `Decode` on that buffer succeeds and leaves the all-empty Packet
in the receiver, whatever the receiver held. -/
theorem C8_zero_length (q : Packet) :
    Encode ⟨[], [], []⟩ = .ok ⟨[0, 0, 0, 0, 0, 0, 0, 0, 0, 0, 0, 0], []⟩
      ∧ Decode q ⟨[0, 0, 0, 0, 0, 0, 0, 0, 0, 0, 0, 0], []⟩ = .ok (⟨[], [], []⟩, none) :=
  ⟨rfl, Decode_header_ok q 0 0 0 [] [] (by decide) (by decide)⟩

theorem not_succeeds_error (e : Panic) : ¬ Succeeds (.error e) := by
  rintro ⟨p, hp⟩
  cases hp

theorem not_succeeds_err (q : Packet) (e : Error) : ¬ Succeeds (.ok (q, some e)) := by
  rintro ⟨p, hp⟩
  cases hp

/-- The encoded buffer of a packet whose field lengths fit in 32 bits, with
header bytes 8..11 replaced by `LE32(c)`. -/
theorem encoded_set_valLen (p : Packet) (ha : p.Op.length < 2 ^ 32) (hb : p.Key.length < 2 ^ 32)
    (c : Nat) :
    (encoded p).take 8 ++ le32 c ++ (encoded p).drop 12
      = header p.Op.length p.Key.length c ++ (p.Op ++ (p.Key ++ p.Value)) := by
  rw [encoded_eq p ha hb, uint32_of_lt _ ha, uint32_of_lt _ hb]
  have h8 : (header p.Op.length p.Key.length (uint32 p.Value.length)
      ++ (p.Op ++ (p.Key ++ p.Value))).take 8 = le32 p.Op.length ++ le32 p.Key.length := by
    rw [header_append]; rfl
  have h12 : (header p.Op.length p.Key.length (uint32 p.Value.length)
      ++ (p.Op ++ (p.Key ++ p.Value))).drop 12 = p.Op ++ (p.Key ++ p.Value) := by
    rw [header_append]; rfl
  rw [h8, h12]
  rfl

/-- C9: for every Packet `p` whose encoded length is below `2 ^ 32` and every
32-bit value `c`, let `buf` be the buffer of `Encode p` with header bytes
8..11 replaced by `LE32(c)`.  If `c ≤ len(p.Value)`, `Decode` succeeds with
`Op = p.Op`, `Key = p.Key` and `Value` the first `c` bytes of `p.Value`; if
`c > len(p.Value)`, `Decode` does not succeed. -/
theorem C9_field_ordering_integrity (p q : Packet) (c : Nat)
    (ht : 12 + p.Op.length + p.Key.length + p.Value.length < 2 ^ 32) (hc : c < 2 ^ 32) :
    ∃ buf, Encode p = .ok buf
      ∧ (c ≤ p.Value.length →
          Decode q ⟨buf.elems.take 8 ++ le32 c ++ buf.elems.drop 12, buf.spare⟩
            = .ok (⟨p.Op, p.Key, p.Value.take c⟩, none))
      ∧ (p.Value.length < c →
          ¬ Succeeds (Decode q ⟨buf.elems.take 8 ++ le32 c ++ buf.elems.drop 12, buf.spare⟩)) := by
  refine ⟨⟨encoded p, []⟩, Encode_ok p, ?_, ?_⟩
  · intro hle
    simp only []
    rw [encoded_set_valLen p (by omega) (by omega),
      Decode_header_ok q _ _ _ _ [] (by omega) (by simp only [List.length_append]; omega)]
    rw [List.take_left, List.drop_left, List.take_left, ← List.append_assoc,
      ← List.length_append, List.drop_left]
  · intro hlt
    simp only []
    rw [encoded_set_valLen p (by omega) (by omega)]
    by_cases hw : 12 + p.Op.length + p.Key.length + c < 2 ^ 32
    · rw [Decode_header_eof q _ _ _ _ [] hw (by simp only [List.length_append]; omega)]
      exact not_succeeds_err _ _
    · obtain ⟨lo, hi, cap, he⟩ := Decode_header_panic q p.Op.length p.Key.length c
        (p.Op ++ (p.Key ++ p.Value)) [] (by omega) (by omega) hc (by omega)
        (by simp only [List.length_append]; omega)
      rw [he]
      exact not_succeeds_error _

/-- Witness of C9 at `Op = [1]`, `Key = [2]`, `Value = [3, 4]`, with the value
length set to 1 and to 3. -/
theorem C9_field_ordering_integrity_witness :
    (∃ buf, Encode ⟨[1], [2], [3, 4]⟩ = .ok buf
      ∧ ((1 : Nat) ≤ [(3 : Byte), 4].length →
          Decode ⟨[], [], []⟩ ⟨buf.elems.take 8 ++ le32 1 ++ buf.elems.drop 12, buf.spare⟩
            = .ok (⟨[1], [2], [(3 : Byte), 4].take 1⟩, none))
      ∧ ([(3 : Byte), 4].length < 1 →
          ¬ Succeeds (Decode ⟨[], [], []⟩
            ⟨buf.elems.take 8 ++ le32 1 ++ buf.elems.drop 12, buf.spare⟩)))
    ∧ (∃ buf, Encode ⟨[1], [2], [3, 4]⟩ = .ok buf
      ∧ ((3 : Nat) ≤ [(3 : Byte), 4].length →
          Decode ⟨[], [], []⟩ ⟨buf.elems.take 8 ++ le32 3 ++ buf.elems.drop 12, buf.spare⟩
            = .ok (⟨[1], [2], [(3 : Byte), 4].take 3⟩, none))
      ∧ ([(3 : Byte), 4].length < 3 →
          ¬ Succeeds (Decode ⟨[], [], []⟩
            ⟨buf.elems.take 8 ++ le32 3 ++ buf.elems.drop 12, buf.spare⟩))) :=
  ⟨C9_field_ordering_integrity ⟨[1], [2], [3, 4]⟩ ⟨[], [], []⟩ 1 (by decide) (by decide),
   C9_field_ordering_integrity ⟨[1], [2], [3, 4]⟩ ⟨[], [], []⟩ 3 (by decide) (by decide)⟩

/-- C10: for every receiver `q` and every buffer on which `Decode` returns an
error, the receiver after the call is `q`, unchanged in `Op`, `Key` and
`Value`. -/
theorem C10_failure_atomicity (q r : Packet) (buf : Slice) (e : Error)
    (h : Decode q buf = .ok (r, some e)) : r = q := by
  unfold Decode decodeWith at h
  split at h
  · cases h; rfl
  · cases h0 : (buf.sliceFrom 0 >>= Uint32) with
    | error x => rw [h0] at h; cases h
    | ok opLen =>
      cases h4 : (buf.sliceFrom 4 >>= Uint32) with
      | error x => rw [h0, h4] at h; cases h
      | ok keyLen =>
        cases h8 : (buf.sliceFrom 8 >>= Uint32) with
        | error x => rw [h0, h4, h8] at h; cases h
        | ok valLen =>
          rw [h0, h4, h8] at h
          simp only [bind, Except.bind] at h
          split at h
          · cases h; rfl
          · split at h
            · cases h
            · split at h
              · cases h
              · split at h
                · cases h
                · cases h

/-- Witness of C10 at the receiver `([1], [2], [3])` and a 12-byte buffer
whose header declares one `Op` byte that the buffer does not hold. -/
theorem C10_failure_atomicity_witness :
    Decode ⟨[1], [2], [3]⟩ ⟨[1, 0, 0, 0, 0, 0, 0, 0, 0, 0, 0, 0], []⟩
        = .ok (⟨[1], [2], [3]⟩, some .ErrUnexpectedEOF)
      ∧ (⟨[1], [2], [3]⟩ : Packet) = ⟨[1], [2], [3]⟩ :=
  ⟨rfl, C10_failure_atomicity ⟨[1], [2], [3]⟩ ⟨[1], [2], [3]⟩
    ⟨[1, 0, 0, 0, 0, 0, 0, 0, 0, 0, 0, 0], []⟩ .ErrUnexpectedEOF rfl⟩

/-- C11: for every buffer, an error returned by `Decode` is
`io.ErrUnexpectedEOF`, for a truncated header and for a truncated body alike;
it is never `ErrInvalidPacket`. -/
theorem C11_single_error_kind (q r : Packet) (buf : Slice) (e : Error)
    (h : Decode q buf = .ok (r, some e)) :
    e = .ErrUnexpectedEOF ∧ e ≠ .ErrInvalidPacket := by
  have he := Decode_err_inv q r buf e h
  subst he
  exact ⟨rfl, by decide⟩

/-- Witness of C11 at a truncated body: a 13-byte buffer whose header declares
two `Op` bytes. -/
theorem C11_single_error_kind_witness :
    Decode ⟨[], [], []⟩ ⟨[2, 0, 0, 0, 0, 0, 0, 0, 0, 0, 0, 0, 65], []⟩
        = .ok (⟨[], [], []⟩, some .ErrUnexpectedEOF)
      ∧ (Error.ErrUnexpectedEOF = .ErrUnexpectedEOF
        ∧ Error.ErrUnexpectedEOF ≠ .ErrInvalidPacket) :=
  ⟨rfl, C11_single_error_kind ⟨[], [], []⟩ ⟨[], [], []⟩
    ⟨[2, 0, 0, 0, 0, 0, 0, 0, 0, 0, 0, 0, 65], []⟩ .ErrUnexpectedEOF rfl⟩

/-- C12 fails on the code: on the 13-byte buffer whose header declares
`opLen = 1`, `keyLen = 0xFFFFFFFF`, `valLen = 0`, the exact sum
`12 + 1 + 4294967295 + 0` is far above `len(buf) = 13`, but the total `Decode`
uses is the `uint32` sum, which wraps to 12; the length check lets the buffer
through and `buf[13:12]` stops `Decode` with a slice-bounds panic instead of
`io.ErrUnexpectedEOF`. -/
theorem C12_wrapped_total_is_not_exact :
    (Slice.mk [1, 0, 0, 0, 255, 255, 255, 255, 0, 0, 0, 0, 65] []).len
        < 12 + 1 + 4294967295 + 0
      ∧ uint32 (uint32 (uint32 (packetHeaderSize + 1) + 4294967295) + 0) = 12
      ∧ Decode ⟨[], [], []⟩ ⟨[1, 0, 0, 0, 255, 255, 255, 255, 0, 0, 0, 0, 65], []⟩
        = .error (.sliceBoundsOutOfRange 13 12 13) :=
  ⟨by decide, rfl, rfl⟩

/-- C13: for every buffer on which `Decode` succeeds, with `a`, `b`, `c` the
values the code reads at offsets 0, 4 and 8, the decoded `Op` is
`buf[12 : 12+a]`, `Key` is `buf[12+a : 12+a+b]` and `Value` is
`buf[12+a+b : 12+a+b+c]`; they have lengths `a`, `b`, `c`, follow one another
without gap or overlap after the 12 header bytes, and `12+a+b+c ≤ len(buf)`. -/
theorem C13_field_extraction (q r : Packet) (buf : Slice)
    (h : Decode q buf = .ok (r, none)) :
    ∃ a b c, (buf.sliceFrom 0 >>= Uint32) = .ok a
      ∧ (buf.sliceFrom 4 >>= Uint32) = .ok b
      ∧ (buf.sliceFrom 8 >>= Uint32) = .ok c
      ∧ 12 + a + b + c ≤ buf.len
      ∧ r.Op = (buf.elems.drop 12).take a
      ∧ r.Key = (buf.elems.drop (12 + a)).take b
      ∧ r.Value = (buf.elems.drop (12 + a + b)).take c
      ∧ r.Op.length = a ∧ r.Key.length = b ∧ r.Value.length = c
      ∧ buf.elems
        = buf.elems.take 12 ++ r.Op ++ r.Key ++ r.Value ++ buf.elems.drop (12 + a + b + c) := by
  obtain ⟨a, b, c, rest, ha, hb, hc, he, ht, hl, hr⟩ := Decode_ok_inv q r buf h
  have hbuf : buf = ⟨header a b c ++ rest, buf.spare⟩ := by
    cases buf; simp only [Slice.mk.injEq, and_true]; exact he
  refine ⟨a, b, c, ?_, ?_, ?_, ?_, ?_, ?_, ?_, ?_, ?_, ?_, ?_⟩
  · rw [hbuf]; exact read_opLen a b c ha rest _
  · rw [hbuf]; exact read_keyLen a b c hb rest _
  · rw [hbuf]; exact read_valLen a b c hc rest _
  · rw [Slice.len, he, List.length_append, header_length]; omega
  · have d := drop_header_append a b c 0 rest
    rw [Nat.add_zero, List.drop_zero] at d
    rw [hr, he, d]
  · rw [hr, he, drop_header_append]
  · rw [hr, he, Nat.add_assoc, drop_header_append]
  · rw [hr]; simp only [List.length_take]; omega
  · rw [hr]; simp only [List.length_take, List.length_drop]; omega
  · rw [hr]; simp only [List.length_take, List.length_drop]; omega
  · have t12 : (header a b c ++ rest).take 12 = header a b c := by
      rw [List.take_append_of_le_length (by rw [header_length]),
        List.take_of_length_le (by rw [header_length])]
    have dn : (header a b c ++ rest).drop (12 + a + b + c) = rest.drop (a + b + c) := by
      rw [Nat.add_assoc, Nat.add_assoc, ← Nat.add_assoc a, drop_header_append]
    rw [hr, he, t12, dn]
    simp only [List.append_assoc]
    congr 1
    have e1 := List.take_append_drop a rest
    have e2 := List.take_append_drop b (rest.drop a)
    have e3 := List.take_append_drop c (rest.drop (a + b))
    rw [List.drop_drop] at e2 e3
    rw [e3, e2, e1]

/-- Witness of C13 at a 16-byte buffer: the header declaring `(1, 1, 1)`, the
body `[5, 6, 7]` and one trailing byte. -/
theorem C13_field_extraction_witness :
    Decode ⟨[], [], []⟩ ⟨[1, 0, 0, 0, 1, 0, 0, 0, 1, 0, 0, 0, 5, 6, 7, 8], []⟩
        = .ok (⟨[5], [6], [7]⟩, none)
      ∧ ∃ a b c,
        ((Slice.mk [1, 0, 0, 0, 1, 0, 0, 0, 1, 0, 0, 0, 5, 6, 7, 8] []).sliceFrom 0 >>= Uint32)
            = .ok a
          ∧ ((Slice.mk [1, 0, 0, 0, 1, 0, 0, 0, 1, 0, 0, 0, 5, 6, 7, 8] []).sliceFrom 4 >>= Uint32)
            = .ok b
          ∧ ((Slice.mk [1, 0, 0, 0, 1, 0, 0, 0, 1, 0, 0, 0, 5, 6, 7, 8] []).sliceFrom 8 >>= Uint32)
            = .ok c
          ∧ 12 + a + b + c ≤ (Slice.mk [1, 0, 0, 0, 1, 0, 0, 0, 1, 0, 0, 0, 5, 6, 7, 8] []).len
          ∧ (Packet.mk [5] [6] [7]).Op
            = (List.drop 12 [1, 0, 0, 0, 1, 0, 0, 0, 1, 0, 0, 0, 5, 6, 7, 8]).take a
          ∧ (Packet.mk [5] [6] [7]).Key
            = (List.drop (12 + a) [1, 0, 0, 0, 1, 0, 0, 0, 1, 0, 0, 0, 5, 6, 7, 8]).take b
          ∧ (Packet.mk [5] [6] [7]).Value
            = (List.drop (12 + a + b) [1, 0, 0, 0, 1, 0, 0, 0, 1, 0, 0, 0, 5, 6, 7, 8]).take c
          ∧ (Packet.mk [5] [6] [7]).Op.length = a
          ∧ (Packet.mk [5] [6] [7]).Key.length = b
          ∧ (Packet.mk [5] [6] [7]).Value.length = c
          ∧ ([1, 0, 0, 0, 1, 0, 0, 0, 1, 0, 0, 0, 5, 6, 7, 8] : List Byte)
            = List.take 12 [1, 0, 0, 0, 1, 0, 0, 0, 1, 0, 0, 0, 5, 6, 7, 8]
              ++ (Packet.mk [5] [6] [7]).Op ++ (Packet.mk [5] [6] [7]).Key
              ++ (Packet.mk [5] [6] [7]).Value
              ++ List.drop (12 + a + b + c) [1, 0, 0, 0, 1, 0, 0, 0, 1, 0, 0, 0, 5, 6, 7, 8] :=
  ⟨rfl, C13_field_extraction ⟨[], [], []⟩ ⟨[5], [6], [7]⟩
    ⟨[1, 0, 0, 0, 1, 0, 0, 0, 1, 0, 0, 0, 5, 6, 7, 8], []⟩ rfl⟩

/-- C14: for every Packet `p` whose encoded length is below `2 ^ 32` and every
byte sequence `t`, `Decode` on the bytes of `Encode p` followed by `t`
succeeds and leaves exactly `p` in the receiver. -/
theorem C14_trailing_bytes_ignored (p q : Packet) (t sp : List Byte)
    (ht : 12 + p.Op.length + p.Key.length + p.Value.length < 2 ^ 32) :
    ∃ buf, Encode p = .ok buf ∧ Decode q ⟨buf.elems ++ t, sp⟩ = .ok (p, none) := by
  refine ⟨⟨encoded p, []⟩, Encode_ok p, ?_⟩
  simp only []
  rw [encoded_eq p (by omega) (by omega), uint32_of_lt _ (by omega : p.Op.length < 2 ^ 32),
    uint32_of_lt _ (by omega : p.Key.length < 2 ^ 32),
    uint32_of_lt _ (by omega : p.Value.length < 2 ^ 32)]
  simp only [List.append_assoc]
  rw [Decode_header_ok q _ _ _ _ sp ht (by simp only [List.length_append]; omega)]
  rw [List.take_left, List.drop_left, List.take_left, ← List.append_assoc,
    ← List.length_append, List.drop_left, List.take_left]

/-- Witness of C14 at `Op = [1]`, `Key = [2]`, `Value = [3]` and the trailing
bytes `[9, 9]`. -/
theorem C14_trailing_bytes_ignored_witness :
    12 + [(1 : Byte)].length + [(2 : Byte)].length + [(3 : Byte)].length < 2 ^ 32
      ∧ ∃ buf, Encode ⟨[1], [2], [3]⟩ = .ok buf
          ∧ Decode ⟨[], [], []⟩ ⟨buf.elems ++ [9, 9], []⟩ = .ok (⟨[1], [2], [3]⟩, none) :=
  ⟨by decide, C14_trailing_bytes_ignored ⟨[1], [2], [3]⟩ ⟨[], [], []⟩ [9, 9] [] (by decide)⟩

/-- C15: for every buffer on which `Decode` succeeds, with `a`, `b`, `c` the
values the code reads at offsets 0, 4 and 8, `Encode` of the decoded Packet
returns exactly the first `12 + a + b + c` bytes of the buffer, and the whole
buffer when `len(buf) = 12 + a + b + c`. -/
theorem C15_reverse_roundtrip (q r : Packet) (buf : Slice)
    (h : Decode q buf = .ok (r, none)) :
    ∃ a b c out, (buf.sliceFrom 0 >>= Uint32) = .ok a
      ∧ (buf.sliceFrom 4 >>= Uint32) = .ok b
      ∧ (buf.sliceFrom 8 >>= Uint32) = .ok c
      ∧ Encode r = .ok out
      ∧ out.elems = buf.elems.take (12 + a + b + c)
      ∧ (buf.len = 12 + a + b + c → out.elems = buf.elems) := by
  obtain ⟨a, b, c, rest, ha, hb, hc, he, ht, hl, hr⟩ := Decode_ok_inv q r buf h
  have hbuf : buf = ⟨header a b c ++ rest, buf.spare⟩ := by
    cases buf; simp only [Slice.mk.injEq, and_true]; exact he
  have la : r.Op.length = a := by rw [hr]; simp only [List.length_take]; omega
  have lb : r.Key.length = b := by
    rw [hr]; simp only [List.length_take, List.length_drop]; omega
  have lc : r.Value.length = c := by
    rw [hr]; simp only [List.length_take, List.length_drop]; omega
  have henc : encoded r = buf.elems.take (12 + a + b + c) := by
    rw [encoded_eq r (by omega) (by omega), la, lb, lc, uint32_of_lt _ ha, uint32_of_lt _ hb,
      uint32_of_lt _ hc, he, Nat.add_assoc, Nat.add_assoc, ← Nat.add_assoc a,
      ← header_length a b c, List.take_append, List.take_add, List.take_add, hr]
    simp only [List.append_assoc]
  refine ⟨a, b, c, ⟨encoded r, []⟩, ?_, ?_, ?_, Encode_ok r, henc, ?_⟩
  · rw [hbuf]; exact read_opLen a b c ha rest _
  · rw [hbuf]; exact read_keyLen a b c hb rest _
  · rw [hbuf]; exact read_valLen a b c hc rest _
  · intro hlen
    simp only []
    rw [henc, List.take_of_length_le (by unfold Slice.len at hlen; omega)]

/-- Witness of C15 at a 16-byte buffer: the header declaring `(1, 1, 1)`, the
body `[5, 6, 7]` and one trailing byte. -/
theorem C15_reverse_roundtrip_witness :
    Decode ⟨[], [], []⟩ ⟨[1, 0, 0, 0, 1, 0, 0, 0, 1, 0, 0, 0, 5, 6, 7, 8], []⟩
        = .ok (⟨[5], [6], [7]⟩, none)
      ∧ ∃ a b c out,
        ((Slice.mk [1, 0, 0, 0, 1, 0, 0, 0, 1, 0, 0, 0, 5, 6, 7, 8] []).sliceFrom 0 >>= Uint32)
            = .ok a
          ∧ ((Slice.mk [1, 0, 0, 0, 1, 0, 0, 0, 1, 0, 0, 0, 5, 6, 7, 8] []).sliceFrom 4 >>= Uint32)
            = .ok b
          ∧ ((Slice.mk [1, 0, 0, 0, 1, 0, 0, 0, 1, 0, 0, 0, 5, 6, 7, 8] []).sliceFrom 8 >>= Uint32)
            = .ok c
          ∧ Encode ⟨[5], [6], [7]⟩ = .ok out
          ∧ out.elems = List.take (12 + a + b + c) [1, 0, 0, 0, 1, 0, 0, 0, 1, 0, 0, 0, 5, 6, 7, 8]
          ∧ ((Slice.mk [1, 0, 0, 0, 1, 0, 0, 0, 1, 0, 0, 0, 5, 6, 7, 8] []).len = 12 + a + b + c
            → out.elems = [1, 0, 0, 0, 1, 0, 0, 0, 1, 0, 0, 0, 5, 6, 7, 8]) :=
  ⟨rfl, C15_reverse_roundtrip ⟨[], [], []⟩ ⟨[5], [6], [7]⟩
    ⟨[1, 0, 0, 0, 1, 0, 0, 0, 1, 0, 0, 0, 5, 6, 7, 8], []⟩ rfl⟩

/-- C16: for all Packets `p` and `q` whose field lengths each fit in an
unsigned 32-bit integer, if `Encode p = Encode q` then `p` and `q` have the
same `Op`, `Key` and `Value`. -/
theorem C16_encode_injective (p q : Packet)
    (hpa : p.Op.length < 2 ^ 32) (hpb : p.Key.length < 2 ^ 32) (_hpc : p.Value.length < 2 ^ 32)
    (hqa : q.Op.length < 2 ^ 32) (hqb : q.Key.length < 2 ^ 32) (_hqc : q.Value.length < 2 ^ 32)
    (h : Encode p = Encode q) :
    p.Op = q.Op ∧ p.Key = q.Key ∧ p.Value = q.Value := by
  rw [Encode_ok, Encode_ok, encoded_eq p hpa hpb, encoded_eq q hqa hqb] at h
  simp only [Except.ok.injEq, Slice.mk.injEq, and_true] at h
  obtain ⟨ea, eb, _, ex⟩ := header_append_inj _ _ _ _ _ _ _ _ (uint32_lt _) (uint32_lt _)
    (uint32_lt _) (uint32_lt _) (uint32_lt _) (uint32_lt _) h
  rw [uint32_of_lt _ hpa, uint32_of_lt _ hqa] at ea
  rw [uint32_of_lt _ hpb, uint32_of_lt _ hqb] at eb
  obtain ⟨e1, e2⟩ := List.append_inj ex ea
  obtain ⟨e3, e4⟩ := List.append_inj e2 eb
  exact ⟨e1, e3, e4⟩

/-- Witness of C16 at `p = q = ([1], [2, 3], [4])`. -/
theorem C16_encode_injective_witness :
    Encode ⟨[1], [2, 3], [4]⟩ = Encode ⟨[1], [2, 3], [4]⟩
      ∧ ((Packet.mk [1] [2, 3] [4]).Op = (Packet.mk [1] [2, 3] [4]).Op
        ∧ (Packet.mk [1] [2, 3] [4]).Key = (Packet.mk [1] [2, 3] [4]).Key
        ∧ (Packet.mk [1] [2, 3] [4]).Value = (Packet.mk [1] [2, 3] [4]).Value) :=
  ⟨rfl, C16_encode_injective ⟨[1], [2, 3], [4]⟩ ⟨[1], [2, 3], [4]⟩
    (by decide) (by decide) (by decide) (by decide) (by decide) (by decide) rfl⟩

/-! ## The option flags -/

theorem or_eq_zero_iff (a b : Nat) : a ||| b = 0 ↔ a = 0 ∧ b = 0 := by
  constructor
  · intro h
    have hb : ∀ i, a.testBit i = false ∧ b.testBit i = false := by
      intro i
      have := congrArg (fun n => Nat.testBit n i) h
      simpa [Nat.testBit_or] using this
    exact ⟨Nat.eq_of_testBit_eq (fun i => by rw [(hb i).1, Nat.zero_testBit]),
      Nat.eq_of_testBit_eq (fun i => by rw [(hb i).2, Nat.zero_testBit])⟩
  · rintro ⟨rfl, rfl⟩
    rfl

theorem orAll_cons (x : Nat) (s : List Nat) : orAll (x :: s) = x ||| orAll s := rfl

theorem flags_lt : ∀ f ∈ flags, f < 2 ^ 8 := by decide

theorem flags_and : ∀ f ∈ flags, ∀ x ∈ flags, (f &&& x ≠ 0 ↔ f = x) := by decide

/-- The OR of any collection of flags fits in a byte. -/
theorem orAll_lt (s : List Nat) (hs : ∀ x ∈ s, x ∈ flags) : orAll s < 2 ^ 8 := by
  induction s with
  | nil => decide
  | cons x s ih =>
    rw [orAll_cons]
    exact Nat.or_lt_two_pow (flags_lt x (hs x (List.mem_cons_self x s)))
      (ih (fun y hy => hs y (List.mem_cons_of_mem x hy)))

/-- A flag is in a collection of flags exactly when its bit is set in the OR
of the collection. -/
theorem mem_iff_orAll_and (s : List Nat) (hs : ∀ x ∈ s, x ∈ flags) (f : Nat) (hf : f ∈ flags) :
    f ∈ s ↔ orAll s &&& f ≠ 0 := by
  induction s with
  | nil =>
    have h0 : orAll [] &&& f = 0 := Nat.zero_and f
    simp [h0]
  | cons x s ih =>
    have ih2 := ih (fun y hy => hs y (List.mem_cons_of_mem x hy))
    have hx := flags_and f hf x (hs x (List.mem_cons_self x s))
    rw [orAll_cons, Nat.and_comm, Nat.and_or_distrib_left, List.mem_cons, ih2, ← hx,
      Nat.and_comm (orAll s) f]
    simp only [Ne, or_eq_zero_iff]
    tauto

/-- C17: `Raw` is 0; the seven flags `FastUnmarshal`, `Crc32`, `Pub`, `Sub`,
`Unsub`, `Queue`, `Compress` are the powers of two `2 ^ 1` to `2 ^ 7`, pairwise
distinct and each below 256; for collections `S` and `T` of flags, the OR of
`S` is below 256, a flag is in `S` exactly when its bit is set in the OR of
`S`, and equal ORs mean the same flags are in `S` and in `T`. -/
theorem C17_option_flag_space (S T : List Nat) (hS : ∀ x ∈ S, x ∈ flags)
    (hT : ∀ x ∈ T, x ∈ flags) :
    Raw = 0
      ∧ (FastUnmarshal = 2 ^ 1 ∧ Crc32 = 2 ^ 2 ∧ Pub = 2 ^ 3 ∧ Sub = 2 ^ 4 ∧ Unsub = 2 ^ 5
        ∧ Queue = 2 ^ 6 ∧ Compress = 2 ^ 7)
      ∧ flags.Nodup
      ∧ (∀ f ∈ flags, f < 256)
      ∧ orAll S < 256
      ∧ (∀ f ∈ flags, (f ∈ S ↔ orAll S &&& f ≠ 0))
      ∧ (orAll S = orAll T → ∀ f, f ∈ S ↔ f ∈ T) := by
  refine ⟨rfl, by decide, by decide, by decide, orAll_lt S hS,
    fun f hf => mem_iff_orAll_and S hS f hf, ?_⟩
  intro h f
  by_cases hf : f ∈ flags
  · rw [mem_iff_orAll_and S hS f hf, mem_iff_orAll_and T hT f hf, h]
  · exact ⟨fun hfS => absurd (hS f hfS) hf, fun hfT => absurd (hT f hfT) hf⟩

/-- Witness of C17 at the flags of `TestMarshalUnmarshalCompressCrc32FastUnmarshal`,
`Compress | Crc32 | FastUnmarshal`, in two orders. -/
theorem C17_option_flag_space_witness :
    ((∀ x ∈ [Compress, Crc32, FastUnmarshal], x ∈ flags)
      ∧ (∀ x ∈ [FastUnmarshal, Crc32, Compress], x ∈ flags))
    ∧ (Raw = 0
      ∧ (FastUnmarshal = 2 ^ 1 ∧ Crc32 = 2 ^ 2 ∧ Pub = 2 ^ 3 ∧ Sub = 2 ^ 4 ∧ Unsub = 2 ^ 5
        ∧ Queue = 2 ^ 6 ∧ Compress = 2 ^ 7)
      ∧ flags.Nodup
      ∧ (∀ f ∈ flags, f < 256)
      ∧ orAll [Compress, Crc32, FastUnmarshal] < 256
      ∧ (∀ f ∈ flags,
          (f ∈ [Compress, Crc32, FastUnmarshal]
            ↔ orAll [Compress, Crc32, FastUnmarshal] &&& f ≠ 0))
      ∧ (orAll [Compress, Crc32, FastUnmarshal] = orAll [FastUnmarshal, Crc32, Compress]
          → ∀ f, f ∈ [Compress, Crc32, FastUnmarshal] ↔ f ∈ [FastUnmarshal, Crc32, Compress])) :=
  ⟨⟨by decide, by decide⟩,
    C17_option_flag_space [Compress, Crc32, FastUnmarshal] [FastUnmarshal, Crc32, Compress]
      (by decide) (by decide)⟩

end Awe
